import Mathlib

/-!
# Verification of the PECOK ADMM solver

Shallow embedding of `src/pecok/admm.py` and proofs about it.

The numerical code works on dense real matrices; we embed matrices as
`Matrix (Fin n) (Fin n) α` over a linear ordered field `α` (instantiated at
`ℚ` for executable checks and at `ℝ` for the solver loop, whose stopping rule
uses square roots).  The eigendecomposition performed by `scipy.linalg.eigh`
is modelled by passing the eigenvalue/eigenvector data explicitly, together
with the predicate `ValidEigen` stating that the data is an orthonormal
eigendecomposition of the matrix, which is the documented contract of `eigh`.
`eigh` returns eigenvalues in ascending order and the source selects index
ranges of that order; selecting the ranges `[n - n_val_neg, n-1]` of `-Y`
(resp. `[n_val_neg, n-1]` of `Y`) is rendered as filtering the eigenpairs with
negative (resp. nonnegative) eigenvalue, which is exactly the set of
eigenpairs those sorted index ranges select.
-/

namespace Pecok

open Matrix Finset

section Core

variable {α : Type*} [LinearOrderedField α] {n : ℕ}

/-- Row sums of a matrix: `np.sum(Y, 1)`. -/
def rowSum (Y : Matrix (Fin n) (Fin n) α) (i : Fin n) : α := ∑ j, Y i j

/-- Squared Frobenius norm: the sum of the squares of all entries. -/
def frobSq (A : Matrix (Fin n) (Fin n) α) : α := ∑ i, ∑ j, (A i j) ^ 2

/-- Frobenius inner product of two matrices. -/
def minner (A B : Matrix (Fin n) (Fin n) α) : α := ∑ i, ∑ j, A i j * B i j

/-- Positive semi-definiteness of a matrix, via its quadratic form. -/
def isPSD (A : Matrix (Fin n) (Fin n) α) : Prop :=
  ∀ x : Fin n → α, 0 ≤ Matrix.dotProduct x (A.mulVec x)

/-- `operator_lstarllstarinv(u, v)`: the matrix with entries `u i + δ_{ij} v`
(`u.repeat(u.size).reshape((u.size, u.size)) + np.diag(np.repeat(v, u.size))`,
where both call sites pass a scalar `v`). -/
def operator_lstarllstarinv (u : Fin n → α) (v : α) : Matrix (Fin n) (Fin n) α :=
  Matrix.of fun i j => u i + if i = j then v else 0

/-- `proj_lin_Hrows(Y, K)`: correction of `Y` so that every row sums to `1`
and the trace equals `K`, by the closed-form solve of the source. -/
def proj_lin_Hrows (Y : Matrix (Fin n) (Fin n) α) (K : α) : Matrix (Fin n) (Fin n) α :=
  let np : α := (n : α)
  let x : Fin n → α := fun i => rowSum Y i - 1
  let y : α := Matrix.trace Y - K
  let sx : α := ∑ i, x i
  let invx : Fin n → α := fun i => (x i + (sx - y * np) / (np ^ 2 - np)) / np
  let invy : α := ((y - sx) / (np - 1) + y) / np
  Y - operator_lstarllstarinv invx invy

/-- `operator_lstarllstarinv_sym(u, v)`: symmetrized correction operator,
`(temp + temp.T) - np.diag(np.diag(temp))`. -/
def operator_lstarllstarinv_sym (u : Fin n → α) (v : α) : Matrix (Fin n) (Fin n) α :=
  let temp := operator_lstarllstarinv u v
  (temp + temp.transpose) - Matrix.diagonal (fun i => temp i i)

/-- `proj_lin_Hsymmetric(Y, K)`: symmetry-preserving variant of the affine
correction. -/
def proj_lin_Hsymmetric (Y : Matrix (Fin n) (Fin n) α) (K : α) : Matrix (Fin n) (Fin n) α :=
  let np : α := (n : α)
  let x : Fin n → α := fun i => rowSum Y i - 1
  let y : α := Matrix.trace Y - K
  let sx : α := ∑ i, x i
  let invx : Fin n → α := fun i => (x i - (sx + y) / (2 * np)) / (np - 1)
  let invy : α := (y - (sx + y) / (2 * np)) / (np - 1)
  Y - operator_lstarllstarinv_sym invx invy

/-- The denominators of the closed-form solves in `proj_lin_Hrows` and
`proj_lin_Hsymmetric`: `n - 1`, `n**2 - n` and `2*n` (the solves additionally
divide by `n` itself, recorded as the last element). -/
def proj_lin_denoms (n : ℕ) : List α :=
  [(n : α) - 1, (n : α) ^ 2 - (n : α), 2 * (n : α), (n : α)]

/-- `proj_positive(x, thresh)`: set every entry below `thresh` to `0`
(`x[x < thresh] = 0`; the source default for `thresh` is `0`). -/
def proj_positive (X : Matrix (Fin n) (Fin n) α) (thresh : α) : Matrix (Fin n) (Fin n) α :=
  Matrix.of fun i j => if X i j < thresh then 0 else X i j

/-- `(lam, v)` is a valid output of `scipy.linalg.eigh` on `Y`: the rows of
`v` are orthonormal and `Y = ∑ i, lam i • (v i) (v i)ᵀ`. -/
def ValidEigen (Y : Matrix (Fin n) (Fin n) α) (lam : Fin n → α) (v : Fin n → Fin n → α) : Prop :=
  (∀ i j, Matrix.dotProduct (v i) (v j) = if i = j then 1 else 0) ∧
  Y = ∑ i, lam i • Matrix.vecMulVec (v i) (v i)

/-- `n_val_neg`: the number of negative eigenvalues, `np.sum(eig_vals < 0)`. -/
def negCount (lam : Fin n → α) : ℕ := (Finset.univ.filter fun i => lam i < 0).card

/-- `proj_Snp_imp(Y)`: projection onto the PSD cone, with the source's branch
structure.  The eigendecomposition `(lam, v)` computed by `la.eigh` is passed
explicitly; the sorted index ranges selected by the source are rendered as
filtering by eigenvalue sign (see the module docstring). -/
def proj_Snp_imp (Y : Matrix (Fin n) (Fin n) α) (lam : Fin n → α) (v : Fin n → Fin n → α) :
    Matrix (Fin n) (Fin n) α :=
  if negCount lam = 0 then Y
  else if negCount lam = n then 0
  else if negCount lam < n - negCount lam then
    Y + ∑ i ∈ Finset.univ.filter (fun i => lam i < 0), (-(lam i)) • Matrix.vecMulVec (v i) (v i)
  else
    ∑ i ∈ Finset.univ.filter (fun i => 0 ≤ lam i), lam i • Matrix.vecMulVec (v i) (v i)

/-- The brute-force PSD projection: full eigendecomposition with all negative
eigenvalues clipped to zero. -/
def proj_Snp_naive (lam : Fin n → α) (v : Fin n → Fin n → α) : Matrix (Fin n) (Fin n) α :=
  ∑ i, max (lam i) 0 • Matrix.vecMulVec (v i) (v i)

end Core

section ProjPositive

variable {α : Type*} [LinearOrderedField α] {n : ℕ}

/-- C7 (amended): `proj_positive` sets every entry below `thresh` to `0` and
leaves entries `≥ thresh` unchanged; when `thresh ≤ 0` (in particular at the
source default `thresh = 0`) the output has no entry below `thresh`. -/
theorem proj_positive_clamp (X : Matrix (Fin n) (Fin n) α) (t : α) :
    (∀ i j, X i j < t → proj_positive X t i j = 0) ∧
    (∀ i j, t ≤ X i j → proj_positive X t i j = X i j) ∧
    (t ≤ 0 → ∀ i j, t ≤ proj_positive X t i j) := by
  refine ⟨fun i j h => ?_, fun i j h => ?_, fun ht i j => ?_⟩
  · simp [proj_positive, if_pos h]
  · simp [proj_positive, if_neg (not_lt.mpr h)]
  · by_cases h : X i j < t
    · simpa [proj_positive, if_pos h] using ht
    · simpa [proj_positive, if_neg h] using le_of_not_lt h

/-- C7 counterexample: with threshold `1` the entry `1/2` is clamped to `0`,
which is still below the threshold, so the output can have entries below the
threshold. -/
theorem proj_positive_below_thresh_cex :
    proj_positive !![(1 : ℚ) / 2] 1 0 0 < 1 := by
  norm_num [proj_positive]

/-- C7 witness: the clamping theorem applied at a concrete matrix. -/
theorem proj_positive_clamp_witness :
    proj_positive !![(-1 : ℚ), 2; 0, 1] 0 0 0 = 0 ∧
    proj_positive !![(-1 : ℚ), 2; 0, 1] 0 0 1 = 2 ∧
    (0 : ℚ) ≤ proj_positive !![(-1 : ℚ), 2; 0, 1] 0 0 0 :=
  ⟨(proj_positive_clamp !![(-1 : ℚ), 2; 0, 1] 0).1 0 0 (by norm_num),
   (proj_positive_clamp !![(-1 : ℚ), 2; 0, 1] 0).2.1 0 1 (by norm_num),
   (proj_positive_clamp !![(-1 : ℚ), 2; 0, 1] 0).2.2 le_rfl 0 0⟩

end ProjPositive

section Denominators

variable {α : Type*} [LinearOrderedField α]

/-- C8: for `n ≥ 2` every denominator of the closed-form solves in
`proj_lin_Hrows` and `proj_lin_Hsymmetric` is nonzero, so no division by zero
occurs; for `n < 2` the denominator `n^2 - n` is zero (and the functions are
total anyway: nothing guards against it). -/
theorem proj_lin_denoms_spec (n : ℕ) :
    (2 ≤ n → ∀ d ∈ (proj_lin_denoms n : List α), d ≠ 0) ∧
    (n < 2 → ((n : α) ^ 2 - (n : α) = 0 ∧ ((n : α) ^ 2 - (n : α)) ∈ (proj_lin_denoms n : List α))) := by
  constructor
  · intro hn d hd
    have h2 : (2 : α) ≤ (n : α) := by exact_mod_cast Nat.cast_le.mpr hn
    have h0 : (0 : α) < (n : α) := lt_of_lt_of_le (by norm_num) h2
    have h1 : (0 : α) < (n : α) - 1 := by linarith
    simp only [proj_lin_denoms, List.mem_cons, List.not_mem_nil, or_false] at hd
    rcases hd with h | h | h | h
    · rw [h]; exact ne_of_gt h1
    · rw [h]
      have : (n : α) ^ 2 - (n : α) = (n : α) * ((n : α) - 1) := by ring
      rw [this]
      exact mul_ne_zero (ne_of_gt h0) (ne_of_gt h1)
    · rw [h]; positivity
    · rw [h]; exact ne_of_gt h0
  · intro hn
    interval_cases n <;> simp [proj_lin_denoms]

/-- C8 witness: the denominator theorem applied at `n = 2` and at `n = 1`. -/
theorem proj_lin_denoms_spec_witness :
    (∀ d ∈ (proj_lin_denoms 2 : List ℚ), d ≠ 0) ∧
    ((1 : ℚ) ^ 2 - (1 : ℚ) = 0 ∧ ((1 : ℚ) ^ 2 - (1 : ℚ)) ∈ (proj_lin_denoms 1 : List ℚ)) := by
  refine ⟨(proj_lin_denoms_spec 2).1 (by norm_num), ?_⟩
  have h := (proj_lin_denoms_spec (α := ℚ) 1).2 (by norm_num)
  simpa using h

end Denominators

section ProjLin

variable {α : Type*} [LinearOrderedField α] {n : ℕ}

/-- The affine constraint set: every row sums to `1` and the trace is `K`. -/
def feasible (A : Matrix (Fin n) (Fin n) α) (K : α) : Prop :=
  (∀ i, rowSum A i = 1) ∧ Matrix.trace A = K

theorem rowSum_sub (A B : Matrix (Fin n) (Fin n) α) (i : Fin n) :
    rowSum (A - B) i = rowSum A i - rowSum B i := by
  simp [rowSum, Finset.sum_sub_distrib]

theorem rowSum_lstar (u : Fin n → α) (v : α) (i : Fin n) :
    rowSum (operator_lstarllstarinv u v) i = (n : α) * u i + v := by
  simp [rowSum, operator_lstarllstarinv, Finset.sum_add_distrib, Finset.sum_ite_eq,
    Finset.card_univ, mul_comm]

theorem trace_lstar (u : Fin n → α) (v : α) :
    Matrix.trace (operator_lstarllstarinv u v) = (∑ i, u i) + (n : α) * v := by
  simp [Matrix.trace, Matrix.diag, operator_lstarllstarinv, Finset.sum_add_distrib,
    Finset.card_univ, mul_comm]

theorem rowSum_lstar_sym (u : Fin n → α) (v : α) (i : Fin n) :
    rowSum (operator_lstarllstarinv_sym u v) i
      = ((n : α) - 1) * u i + (∑ j, u j) + v := by
  have h1 : rowSum (operator_lstarllstarinv u v).transpose i = (∑ j, u j) + v := by
    simp [rowSum, operator_lstarllstarinv, Matrix.transpose_apply, Finset.sum_add_distrib,
      Finset.sum_ite_eq']
  have h2 : rowSum (Matrix.diagonal fun j => operator_lstarllstarinv u v j j) i
      = u i + v := by
    simp [rowSum, Matrix.diagonal_apply, operator_lstarllstarinv, Finset.sum_ite_eq]
  simp only [operator_lstarllstarinv_sym]
  rw [show ((operator_lstarllstarinv u v + (operator_lstarllstarinv u v).transpose)
      - Matrix.diagonal fun j => operator_lstarllstarinv u v j j)
      = (operator_lstarllstarinv u v + (operator_lstarllstarinv u v).transpose)
      - Matrix.diagonal fun j => operator_lstarllstarinv u v j j from rfl]
  rw [rowSum_sub]
  have h3 : rowSum (operator_lstarllstarinv u v + (operator_lstarllstarinv u v).transpose) i
      = rowSum (operator_lstarllstarinv u v) i
        + rowSum (operator_lstarllstarinv u v).transpose i := by
    simp [rowSum, Finset.sum_add_distrib]
  rw [h3, h1, h2, rowSum_lstar]
  ring

theorem trace_lstar_sym (u : Fin n → α) (v : α) :
    Matrix.trace (operator_lstarllstarinv_sym u v) = (∑ i, u i) + (n : α) * v := by
  simp only [operator_lstarllstarinv_sym, Matrix.trace_sub, Matrix.trace_add,
    Matrix.trace_transpose]
  have hdiag : Matrix.trace (Matrix.diagonal fun i => operator_lstarllstarinv u v i i)
      = Matrix.trace (operator_lstarllstarinv u v) := by
    simp [Matrix.trace, Matrix.diag, Matrix.diagonal_apply]
  rw [hdiag, trace_lstar]
  ring

theorem sum_shift_div (f : Fin n → α) (c d : α) :
    (∑ i, (f i - c) / d) = ((∑ i, f i) - (n : α) * c) / d := by
  rw [← Finset.sum_div]
  congr 1
  rw [Finset.sum_sub_distrib, Finset.sum_const, Finset.card_univ, Fintype.card_fin,
    nsmul_eq_mul]

theorem sum_add_div (f : Fin n → α) (c d : α) :
    (∑ i, (f i + c) / d) = ((∑ i, f i) + (n : α) * c) / d := by
  rw [← Finset.sum_div]
  congr 1
  rw [Finset.sum_add_distrib, Finset.sum_const, Finset.card_univ, Fintype.card_fin,
    nsmul_eq_mul]

theorem proj_lin_Hrows_feasible (hn : 2 ≤ n) (Y : Matrix (Fin n) (Fin n) α) (K : α) :
    feasible (proj_lin_Hrows Y K) K := by
  have h2 : (2 : α) ≤ (n : α) := by exact_mod_cast Nat.cast_le.mpr hn
  have hnp : ((n : α)) ≠ 0 := by positivity
  have h1 : ((n : α)) - 1 ≠ 0 := by
    have : (0 : α) < (n : α) - 1 := by linarith
    exact ne_of_gt this
  have hsq : ((n : α)) ^ 2 - (n : α) = (n : α) * ((n : α) - 1) := by ring
  constructor
  · intro i
    simp only [proj_lin_Hrows]
    rw [rowSum_sub, rowSum_lstar, hsq]
    field_simp
    ring
  · simp only [proj_lin_Hrows]
    rw [Matrix.trace_sub, trace_lstar, sum_add_div, hsq]
    field_simp
    ring

theorem proj_lin_Hsymmetric_feasible (hn : 2 ≤ n) (Y : Matrix (Fin n) (Fin n) α) (K : α) :
    feasible (proj_lin_Hsymmetric Y K) K := by
  have h2 : (2 : α) ≤ (n : α) := by exact_mod_cast Nat.cast_le.mpr hn
  have hnp : ((n : α)) ≠ 0 := by positivity
  have h1 : ((n : α)) - 1 ≠ 0 := by
    have : (0 : α) < (n : α) - 1 := by linarith
    exact ne_of_gt this
  constructor
  · intro i
    simp only [proj_lin_Hsymmetric]
    rw [rowSum_sub, rowSum_lstar_sym, sum_shift_div]
    field_simp
    ring
  · simp only [proj_lin_Hsymmetric]
    rw [Matrix.trace_sub, trace_lstar_sym, sum_shift_div]
    field_simp
    ring

theorem operator_lstarllstarinv_sym_isSymm (u : Fin n → α) (v : α) :
    (operator_lstarllstarinv_sym u v).IsSymm := by
  simp only [operator_lstarllstarinv_sym, Matrix.IsSymm, Matrix.transpose_sub,
    Matrix.transpose_add, Matrix.transpose_transpose, Matrix.diagonal_transpose]
  abel

theorem proj_lin_Hsymmetric_isSymm (Y : Matrix (Fin n) (Fin n) α) (K : α)
    (hY : Y.IsSymm) : (proj_lin_Hsymmetric Y K).IsSymm := by
  simp only [proj_lin_Hsymmetric, Matrix.IsSymm, Matrix.transpose_sub]
  rw [hY, (operator_lstarllstarinv_sym_isSymm _ _)]

theorem frobSq_nonneg (A : Matrix (Fin n) (Fin n) α) : 0 ≤ frobSq A :=
  Finset.sum_nonneg fun _ _ => Finset.sum_nonneg fun _ _ => sq_nonneg _

theorem frobSq_eq_zero_iff (A : Matrix (Fin n) (Fin n) α) : frobSq A = 0 ↔ A = 0 := by
  constructor
  · intro h
    ext i j
    have h1 := (Finset.sum_eq_zero_iff_of_nonneg
      (fun i _ => Finset.sum_nonneg fun j _ => sq_nonneg (A i j))).mp h i (Finset.mem_univ i)
    have h2 := (Finset.sum_eq_zero_iff_of_nonneg
      (fun j _ => sq_nonneg (A i j))).mp h1 j (Finset.mem_univ j)
    simpa using pow_eq_zero_iff (n := 2) (by norm_num) |>.mp h2
  · intro h
    simp [h, frobSq]

theorem frobSq_add_expand (C D : Matrix (Fin n) (Fin n) α) :
    frobSq (C + D) = frobSq C + 2 * minner C D + frobSq D := by
  simp only [frobSq, minner, Matrix.add_apply]
  have h : ∀ i j, (C i j + D i j) ^ 2
      = C i j ^ 2 + 2 * (C i j * D i j) + D i j ^ 2 := fun i j => by ring
  simp only [h, Finset.sum_add_distrib, Finset.mul_sum]

/-- If the correction `Y - A` is Frobenius-orthogonal to `A - B`, then `A` is
at least as close to `Y` as `B`, strictly so when `B ≠ A`. -/
theorem nearest_of_orthogonal (Y A B : Matrix (Fin n) (Fin n) α)
    (h : minner (Y - A) (A - B) = 0) :
    frobSq (Y - A) ≤ frobSq (Y - B) ∧
    (B ≠ A → frobSq (Y - A) < frobSq (Y - B)) := by
  have key : frobSq (Y - B) = frobSq (Y - A) + frobSq (A - B) := by
    have hYB : Y - B = (Y - A) + (A - B) := by abel
    rw [hYB, frobSq_add_expand, h]
    ring
  constructor
  · rw [key]; exact le_add_of_nonneg_right (frobSq_nonneg _)
  · intro hne
    rw [key]
    have hD : (0 : α) < frobSq (A - B) := by
      rcases lt_or_eq_of_le (frobSq_nonneg (A - B)) with h' | h'
      · exact h'
      · exfalso
        have hAB : A - B = 0 := (frobSq_eq_zero_iff (A - B)).mp h'.symm
        exact hne (sub_eq_zero.mp hAB).symm
    linarith

theorem minner_lstar_left (u : Fin n → α) (v : α) (D : Matrix (Fin n) (Fin n) α) :
    minner (operator_lstarllstarinv u v) D
      = (∑ i, u i * rowSum D i) + v * Matrix.trace D := by
  simp only [minner, operator_lstarllstarinv, Matrix.of_apply, add_mul, ite_mul, zero_mul,
    Finset.sum_add_distrib, Finset.sum_ite_eq, Finset.mem_univ, if_true]
  congr 1
  · exact Finset.sum_congr rfl fun i _ => by rw [rowSum, Finset.mul_sum]
  · simp [Matrix.trace, Matrix.diag, Finset.mul_sum]

theorem proj_lin_Hrows_correction (Y : Matrix (Fin n) (Fin n) α) (K : α) :
    ∃ u : Fin n → α, ∃ v : α,
      Y - proj_lin_Hrows Y K = operator_lstarllstarinv u v := by
  simp only [proj_lin_Hrows, sub_sub_cancel]
  exact ⟨_, _, rfl⟩

/-- C2 (amended): `proj_lin_Hrows` returns the (unique) nearest matrix with
row sums `1` and trace `K`; `proj_lin_Hsymmetric` also returns a matrix with
row sums `1` and trace `K` and preserves symmetry, but is not in general the
nearest such symmetric matrix (see `proj_lin_Hsymmetric_not_nearest_cex`). -/
theorem proj_lin_spec (hn : 2 ≤ n) (Y : Matrix (Fin n) (Fin n) α) (K : α) :
    feasible (proj_lin_Hrows Y K) K ∧
    (∀ B, feasible B K →
      frobSq (Y - proj_lin_Hrows Y K) ≤ frobSq (Y - B) ∧
      (B ≠ proj_lin_Hrows Y K →
        frobSq (Y - proj_lin_Hrows Y K) < frobSq (Y - B))) ∧
    feasible (proj_lin_Hsymmetric Y K) K ∧
    (Y.IsSymm → (proj_lin_Hsymmetric Y K).IsSymm) := by
  have hA := proj_lin_Hrows_feasible hn Y K
  refine ⟨hA, fun B hB => ?_, proj_lin_Hsymmetric_feasible hn Y K,
    proj_lin_Hsymmetric_isSymm Y K⟩
  apply nearest_of_orthogonal
  obtain ⟨u, v, huv⟩ := proj_lin_Hrows_correction Y K
  rw [huv, minner_lstar_left]
  have hrow : ∀ i, rowSum (proj_lin_Hrows Y K - B) i = 0 := fun i => by
    rw [rowSum_sub, hA.1 i, hB.1 i, sub_self]
  have htr : Matrix.trace (proj_lin_Hrows Y K - B) = 0 := by
    rw [Matrix.trace_sub, hA.2, hB.2, sub_self]
  simp [hrow, htr]

/-- C2 counterexample: at `Y = [[1,1,0],[1,0,0],[0,0,1]]` and `K = 2` there is
a symmetric matrix `B` with all row sums `1` and trace `2` that is strictly
closer to `Y` in Frobenius norm than the output of `proj_lin_Hsymmetric`, so
the symmetric variant does not return the nearest feasible symmetric matrix. -/
theorem proj_lin_Hsymmetric_not_nearest_cex :
    (!![(5:ℚ)/9, 13/18, -5/18; 13/18, 2/9, 1/18; -5/18, 1/18, 11/9]).IsSymm ∧
    feasible !![(5:ℚ)/9, 13/18, -5/18; 13/18, 2/9, 1/18; -5/18, 1/18, 11/9] 2 ∧
    frobSq (!![(1:ℚ), 1, 0; 1, 0, 0; 0, 0, 1]
        - !![(5:ℚ)/9, 13/18, -5/18; 13/18, 2/9, 1/18; -5/18, 1/18, 11/9])
      < frobSq (!![(1:ℚ), 1, 0; 1, 0, 0; 0, 0, 1]
        - proj_lin_Hsymmetric !![(1:ℚ), 1, 0; 1, 0, 0; 0, 0, 1] 2) := by
  have hproj : proj_lin_Hsymmetric !![(1:ℚ), 1, 0; 1, 0, 0; 0, 0, 1] 2
      = !![(2:ℚ)/3, 2/3, -1/3; 2/3, 1/6, 1/6; -1/3, 1/6, 7/6] := by
    ext i j
    fin_cases i <;> fin_cases j <;>
      simp [proj_lin_Hsymmetric, operator_lstarllstarinv_sym, operator_lstarllstarinv,
        rowSum, Matrix.trace, Matrix.diag, Fin.sum_univ_three, Matrix.diagonal_apply,
        Matrix.vecHead, Matrix.vecTail, Fin.ext_iff] <;> norm_num
  refine ⟨?_, ⟨fun i => ?_, ?_⟩, ?_⟩
  · show Matrix.transpose _ = _
    ext i j
    fin_cases i <;> fin_cases j <;>
      simp [Matrix.vecHead, Matrix.vecTail]
  · fin_cases i <;>
      simp [rowSum, Fin.sum_univ_three, Matrix.vecHead, Matrix.vecTail] <;> norm_num
  · norm_num [Matrix.trace, Matrix.diag, Fin.sum_univ_three, Matrix.vecHead, Matrix.vecTail]
  · rw [hproj]
    norm_num [frobSq, Fin.sum_univ_three, Matrix.vecHead, Matrix.vecTail]

/-- C2 witness: the amended projection theorem applied at a concrete matrix
and a concrete feasible competitor. -/
theorem proj_lin_spec_witness :
    feasible (proj_lin_Hrows !![(1:ℚ), 2; 3, 4] 1) 1 ∧
    frobSq (!![(1:ℚ), 2; 3, 4] - proj_lin_Hrows !![(1:ℚ), 2; 3, 4] 1)
      ≤ frobSq (!![(1:ℚ), 2; 3, 4] - !![(1:ℚ)/2, 1/2; 1/2, 1/2]) ∧
    feasible (proj_lin_Hsymmetric !![(1:ℚ), 2; 3, 4] 1) 1 := by
  have hB : feasible !![(1:ℚ)/2, 1/2; 1/2, 1/2] 1 := by
    refine ⟨fun i => ?_, ?_⟩
    · fin_cases i <;> norm_num [rowSum, Fin.sum_univ_two]
    · norm_num [Matrix.trace, Matrix.diag, Fin.sum_univ_two]
  have W := proj_lin_spec (show 2 ≤ 2 by norm_num) !![(1:ℚ), 2; 3, 4] 1
  exact ⟨W.1, (W.2.1 _ hB).1, W.2.2.1⟩

end ProjLin

section ProjSnp

variable {α : Type*} [LinearOrderedField α] {n : ℕ}

theorem proj_Snp_naive_eq_filter (lam : Fin n → α) (v : Fin n → Fin n → α) :
    proj_Snp_naive lam v
      = ∑ i ∈ Finset.univ.filter (fun i => 0 ≤ lam i),
          lam i • Matrix.vecMulVec (v i) (v i) := by
  rw [proj_Snp_naive,
    ← Finset.sum_filter_add_sum_filter_not Finset.univ (fun i => 0 ≤ lam i)]
  have h1 : ∀ i ∈ Finset.univ.filter (fun i => 0 ≤ lam i),
      max (lam i) 0 • Matrix.vecMulVec (v i) (v i)
        = lam i • Matrix.vecMulVec (v i) (v i) := by
    intro i hi
    rw [max_eq_left (Finset.mem_filter.mp hi).2]
  have h2 : ∀ i ∈ Finset.univ.filter (fun i => ¬ 0 ≤ lam i),
      max (lam i) 0 • Matrix.vecMulVec (v i) (v i) = 0 := by
    intro i hi
    rw [max_eq_right (le_of_lt (not_le.mp (Finset.mem_filter.mp hi).2)), zero_smul]
  rw [Finset.sum_congr rfl h1, Finset.sum_congr rfl h2, Finset.sum_const_zero, add_zero]

theorem proj_Snp_branches_eq (Y : Matrix (Fin n) (Fin n) α) (lam : Fin n → α)
    (v : Fin n → Fin n → α) (hY : Y = ∑ i, lam i • Matrix.vecMulVec (v i) (v i)) :
    Y + ∑ i ∈ Finset.univ.filter (fun i => lam i < 0),
        (-(lam i)) • Matrix.vecMulVec (v i) (v i)
      = ∑ i ∈ Finset.univ.filter (fun i => 0 ≤ lam i),
          lam i • Matrix.vecMulVec (v i) (v i) := by
  rw [hY, ← Finset.sum_filter_add_sum_filter_not Finset.univ (fun i => lam i < 0)]
  have hcancel : (∑ i ∈ Finset.univ.filter (fun i => lam i < 0),
        lam i • Matrix.vecMulVec (v i) (v i))
      + ∑ i ∈ Finset.univ.filter (fun i => lam i < 0),
        (-(lam i)) • Matrix.vecMulVec (v i) (v i) = 0 := by
    rw [← Finset.sum_add_distrib]
    apply Finset.sum_eq_zero
    intro i _
    rw [← add_smul, add_neg_cancel, zero_smul]
  have hfilter : Finset.univ.filter (fun i => ¬ lam i < 0)
      = Finset.univ.filter (fun i => 0 ≤ lam i) := by
    apply Finset.filter_congr
    intro i _
    simp [not_lt]
  rw [add_comm (∑ i ∈ Finset.univ.filter (fun i => lam i < 0), _), add_assoc, hcancel,
    add_zero, hfilter]

theorem proj_Snp_imp_eq_filter (Y : Matrix (Fin n) (Fin n) α) (lam : Fin n → α)
    (v : Fin n → Fin n → α) (hY : Y = ∑ i, lam i • Matrix.vecMulVec (v i) (v i)) :
    proj_Snp_imp Y lam v
      = ∑ i ∈ Finset.univ.filter (fun i => 0 ≤ lam i),
          lam i • Matrix.vecMulVec (v i) (v i) := by
  unfold proj_Snp_imp
  by_cases h0 : negCount lam = 0
  · rw [if_pos h0]
    have hempty : Finset.univ.filter (fun i => lam i < 0) = ∅ :=
      Finset.card_eq_zero.mp h0
    have hall : ∀ i : Fin n, 0 ≤ lam i := by
      intro i
      by_contra h
      have : i ∈ Finset.univ.filter (fun i => lam i < 0) :=
        Finset.mem_filter.mpr ⟨Finset.mem_univ i, not_le.mp h⟩
      simp [hempty] at this
    rw [Finset.filter_true_of_mem fun i _ => hall i, hY]
  · rw [if_neg h0]
    by_cases hn : negCount lam = n
    · rw [if_pos hn]
      have huniv : Finset.univ.filter (fun i => lam i < 0) = Finset.univ := by
        apply Finset.eq_univ_of_card
        rw [Fintype.card_fin]
        exact hn
      have hall : ∀ i : Fin n, lam i < 0 := by
        intro i
        have : i ∈ Finset.univ.filter (fun i => lam i < 0) := by
          rw [huniv]; exact Finset.mem_univ i
        exact (Finset.mem_filter.mp this).2
      have hempty : Finset.univ.filter (fun i => 0 ≤ lam i) = ∅ := by
        apply Finset.filter_eq_empty_iff.mpr
        intro i _
        exact not_le.mpr (hall i)
      rw [hempty, Finset.sum_empty]
    · rw [if_neg hn]
      by_cases hlt : negCount lam < n - negCount lam
      · rw [if_pos hlt]
        exact proj_Snp_branches_eq Y lam v hY
      · rw [if_neg hlt]

theorem vecMulVec_smul_sum_isSymm (s : Finset (Fin n)) (c : Fin n → α)
    (v : Fin n → Fin n → α) :
    (∑ i ∈ s, c i • Matrix.vecMulVec (v i) (v i)).IsSymm := by
  show Matrix.transpose _ = _
  ext a b
  simp only [Matrix.transpose_apply, Matrix.sum_apply, Matrix.smul_apply,
    Matrix.vecMulVec_apply, smul_eq_mul]
  exact Finset.sum_congr rfl fun i _ => by ring

theorem isPSD_zero : isPSD (0 : Matrix (Fin n) (Fin n) α) := by
  intro x
  simp [Matrix.mulVec_zero]

theorem isPSD_add {A B : Matrix (Fin n) (Fin n) α} (hA : isPSD A) (hB : isPSD B) :
    isPSD (A + B) := by
  intro x
  rw [Matrix.add_mulVec, Matrix.dotProduct_add]
  exact add_nonneg (hA x) (hB x)

theorem vecMulVec_mulVec (a : Fin n → α) (x : Fin n → α) :
    (Matrix.vecMulVec a a).mulVec x = (Matrix.dotProduct a x) • a := by
  funext i
  simp only [Matrix.mulVec, Matrix.vecMulVec_apply, Matrix.dotProduct, Pi.smul_apply,
    smul_eq_mul, Finset.sum_mul, Finset.mul_sum]
  exact Finset.sum_congr rfl fun j _ => by ring

theorem isPSD_smul_vecMulVec {c : α} (hc : 0 ≤ c) (a : Fin n → α) :
    isPSD (c • Matrix.vecMulVec a a) := by
  intro x
  rw [Matrix.smul_mulVec_assoc, Matrix.dotProduct_smul, vecMulVec_mulVec,
    Matrix.dotProduct_smul]
  have : Matrix.dotProduct x a = Matrix.dotProduct a x := Matrix.dotProduct_comm x a
  rw [smul_eq_mul, smul_eq_mul, this, ← sq]
  exact mul_nonneg hc (sq_nonneg _)

theorem isPSD_sum_vecMulVec (s : Finset (Fin n)) (c : Fin n → α) (v : Fin n → Fin n → α)
    (hc : ∀ i ∈ s, 0 ≤ c i) :
    isPSD (∑ i ∈ s, c i • Matrix.vecMulVec (v i) (v i)) := by
  classical
  induction s using Finset.induction_on with
  | empty => simpa using isPSD_zero
  | insert hx ih =>
    rw [Finset.sum_insert hx]
    exact isPSD_add (isPSD_smul_vecMulVec (hc _ (Finset.mem_insert_self _ _)) _)
      (ih fun i hi => hc i (Finset.mem_insert_of_mem hi))

theorem orth_mul_transpose (v : Fin n → Fin n → α)
    (h : ∀ i j, Matrix.dotProduct (v i) (v j) = if i = j then 1 else 0) :
    Matrix.of v * (Matrix.of v).transpose = 1 := by
  ext i j
  rw [Matrix.mul_apply, Matrix.one_apply]
  simpa [Matrix.dotProduct] using h i j

theorem sum_smul_vecMulVec_eq_conj (c : Fin n → α) (v : Fin n → Fin n → α) :
    (∑ i, c i • Matrix.vecMulVec (v i) (v i))
      = (Matrix.of v).transpose * Matrix.diagonal c * Matrix.of v := by
  ext a b
  simp only [Matrix.sum_apply, Matrix.smul_apply, Matrix.vecMulVec_apply, smul_eq_mul,
    Matrix.mul_apply, Matrix.transpose_apply, Matrix.of_apply, Matrix.diagonal_apply]
  refine Finset.sum_congr rfl fun k _ => ?_
  have hinner : (∑ l, v l a * if l = k then c l else 0) = v k a * c k := by
    rw [Finset.sum_eq_single k]
    · simp
    · intro l _ hl
      simp [hl]
    · intro h
      exact absurd (Finset.mem_univ k) h
  rw [hinner]
  ring

theorem frobSq_eq_trace (M : Matrix (Fin n) (Fin n) α) :
    frobSq M = Matrix.trace (M.transpose * M) := by
  rw [frobSq, Matrix.trace]
  simp only [Matrix.diag_apply, Matrix.mul_apply, Matrix.transpose_apply]
  rw [Finset.sum_comm]
  exact Finset.sum_congr rfl fun j _ => Finset.sum_congr rfl fun i _ => by rw [sq]

theorem frobSq_conj (P N : Matrix (Fin n) (Fin n) α) (hP1 : P * P.transpose = 1) :
    frobSq (P.transpose * N * P) = frobSq N := by
  rw [frobSq_eq_trace, frobSq_eq_trace]
  have h1 : (P.transpose * N * P).transpose * (P.transpose * N * P)
      = P.transpose * (N.transpose * N) * P := by
    rw [Matrix.transpose_mul, Matrix.transpose_mul, Matrix.transpose_transpose]
    calc P.transpose * (N.transpose * P.transpose.transpose) * (P.transpose * N * P)
        = P.transpose * N.transpose * (P * P.transpose) * (N * P) := by
          rw [Matrix.transpose_transpose]
          simp only [Matrix.mul_assoc]
      _ = P.transpose * (N.transpose * N) * P := by
          rw [hP1, Matrix.mul_one]
          simp only [Matrix.mul_assoc]
  rw [h1, Matrix.trace_mul_comm, ← Matrix.mul_assoc, hP1, Matrix.one_mul]

theorem isPSD_conj (P B : Matrix (Fin n) (Fin n) α) (hB : isPSD B) :
    isPSD (P * B * P.transpose) := by
  intro x
  rw [← Matrix.mulVec_mulVec, ← Matrix.mulVec_mulVec]
  rw [Matrix.dotProduct_mulVec, ← Matrix.mulVec_transpose]
  exact hB (P.transpose.mulVec x)

theorem isPSD_diag_nonneg {M : Matrix (Fin n) (Fin n) α} (hM : isPSD M) (i : Fin n) :
    0 ≤ M i i := by
  have h := hM (Pi.single i 1)
  simpa [Matrix.dotProduct, Matrix.mulVec, Pi.single_apply, Finset.sum_ite_eq,
    Finset.mul_sum, mul_ite, ite_mul] using h

theorem frobSq_diagonal (f : Fin n → α) :
    frobSq (Matrix.diagonal f) = ∑ i, f i ^ 2 := by
  rw [frobSq]
  apply Finset.sum_congr rfl
  intro i _
  rw [Finset.sum_eq_single i]
  · simp [Matrix.diagonal_apply]
  · intro j _ hj
    simp [Matrix.diagonal_apply, Ne.symm hj]
  · intro h
    exact absurd (Finset.mem_univ i) h

theorem frobSq_diag_bound (N : Matrix (Fin n) (Fin n) α) :
    (∑ i, (N i i) ^ 2) ≤ frobSq N := by
  rw [frobSq]
  apply Finset.sum_le_sum
  intro i _
  exact Finset.single_le_sum (f := fun j => N i j ^ 2) (fun j _ => sq_nonneg _)
    (Finset.mem_univ i)

/-- The eigenvalue-clipping reconstruction is the nearest PSD matrix: for any
PSD `B`, `‖Y - clip‖² ≤ ‖Y - B‖²`. -/
theorem proj_Snp_naive_nearest (Y : Matrix (Fin n) (Fin n) α) (lam : Fin n → α)
    (v : Fin n → Fin n → α) (hE : ValidEigen Y lam v)
    (B : Matrix (Fin n) (Fin n) α) (hB : isPSD B) :
    frobSq (Y - proj_Snp_naive lam v) ≤ frobSq (Y - B) := by
  obtain ⟨horth, hY⟩ := hE
  have hP1 : Matrix.of v * (Matrix.of v).transpose = 1 := orth_mul_transpose v horth
  have hP2 : (Matrix.of v).transpose * Matrix.of v = 1 := Matrix.mul_eq_one_comm.mp hP1
  set P : Matrix (Fin n) (Fin n) α := Matrix.of v with hPdef
  have hYP : Y = P.transpose * Matrix.diagonal lam * P := by
    rw [hY, sum_smul_vecMulVec_eq_conj]
  have hNP : proj_Snp_naive lam v
      = P.transpose * Matrix.diagonal (fun i => max (lam i) 0) * P := by
    rw [proj_Snp_naive, sum_smul_vecMulVec_eq_conj]
  set M : Matrix (Fin n) (Fin n) α := P * B * P.transpose with hMdef
  have hBP : B = P.transpose * M * P := by
    rw [hMdef]
    have h : P.transpose * (P * B * P.transpose) * P
        = (P.transpose * P) * B * (P.transpose * P) := by
      simp only [Matrix.mul_assoc]
    rw [h, hP2, Matrix.one_mul, Matrix.mul_one]
  have hM : isPSD M := isPSD_conj P B hB
  have hYB : Y - B = P.transpose * (Matrix.diagonal lam - M) * P := by
    rw [hYP, hBP, ← Matrix.sub_mul, ← Matrix.mul_sub]
  have hYN : Y - proj_Snp_naive lam v
      = P.transpose * (Matrix.diagonal fun i => lam i - max (lam i) 0) * P := by
    rw [hYP, hNP, ← Matrix.sub_mul, ← Matrix.mul_sub, Matrix.diagonal_sub]
  rw [hYB, hYN, frobSq_conj _ _ hP1, frobSq_conj _ _ hP1]
  have step1 : frobSq (Matrix.diagonal fun i => lam i - max (lam i) 0)
      = ∑ i, (lam i - max (lam i) 0) ^ 2 := frobSq_diagonal _
  have step2 : (∑ i, ((Matrix.diagonal lam - M) i i) ^ 2)
      ≤ frobSq (Matrix.diagonal lam - M) := frobSq_diag_bound _
  have step3 : (∑ i, (lam i - max (lam i) 0) ^ 2)
      ≤ ∑ i, ((Matrix.diagonal lam - M) i i) ^ 2 := by
    apply Finset.sum_le_sum
    intro i _
    have hMi : 0 ≤ M i i := isPSD_diag_nonneg hM i
    have hdi : (Matrix.diagonal lam - M) i i = lam i - M i i := by
      simp [Matrix.diagonal_apply]
    rw [hdi]
    rcases le_or_lt 0 (lam i) with h | h
    · rw [max_eq_left h]
      simpa using sq_nonneg (lam i - M i i)
    · rw [max_eq_right (le_of_lt h)]
      nlinarith
  rw [step1]
  exact le_trans step3 step2

/-- C3: given a valid eigendecomposition, `proj_Snp_imp` equals the naive
full-eigendecomposition reconstruction with negative eigenvalues clipped to
zero; the two internal branch formulas agree; with no negative eigenvalue the
exact input is returned and with all eigenvalues negative the zero matrix is
returned; and the clipped reconstruction is symmetric, PSD, and nearest to
`Y` among PSD matrices in (squared) Frobenius norm. -/
theorem proj_Snp_imp_spec (Y : Matrix (Fin n) (Fin n) α) (lam : Fin n → α)
    (v : Fin n → Fin n → α) (hE : ValidEigen Y lam v) :
    proj_Snp_imp Y lam v = proj_Snp_naive lam v ∧
    (Y + ∑ i ∈ Finset.univ.filter (fun i => lam i < 0),
        (-(lam i)) • Matrix.vecMulVec (v i) (v i)
      = ∑ i ∈ Finset.univ.filter (fun i => 0 ≤ lam i),
        lam i • Matrix.vecMulVec (v i) (v i)) ∧
    (negCount lam = 0 → proj_Snp_imp Y lam v = Y) ∧
    (negCount lam = n → proj_Snp_imp Y lam v = 0) ∧
    (proj_Snp_naive lam v).IsSymm ∧ isPSD (proj_Snp_naive lam v) ∧
    (∀ B : Matrix (Fin n) (Fin n) α, B.IsSymm → isPSD B →
      frobSq (Y - proj_Snp_naive lam v) ≤ frobSq (Y - B)) := by
  refine ⟨?_, proj_Snp_branches_eq Y lam v hE.2, ?_, ?_, ?_, ?_, ?_⟩
  · rw [proj_Snp_imp_eq_filter Y lam v hE.2, proj_Snp_naive_eq_filter]
  · intro h0
    rw [proj_Snp_imp, if_pos h0]
  · intro hn
    by_cases h0 : negCount lam = 0
    · rw [proj_Snp_imp, if_pos h0, hE.2]
      have : n = 0 := h0 ▸ hn.symm
      subst this
      simp
    · rw [proj_Snp_imp, if_neg h0, if_pos hn]
  · rw [proj_Snp_naive]
    exact vecMulVec_smul_sum_isSymm Finset.univ _ v
  · rw [proj_Snp_naive]
    exact isPSD_sum_vecMulVec Finset.univ _ v fun i _ => le_max_right _ _
  · intro B _ hB
    exact proj_Snp_naive_nearest Y lam v hE B hB

/-- C3 witness: the specification applied to a concrete eigendecomposition of
`diag(1, -1)`. -/
theorem proj_Snp_imp_spec_witness :
    proj_Snp_imp !![(1 : ℚ), 0; 0, -1] ![1, -1] ![![1, 0], ![0, 1]]
      = proj_Snp_naive ![(1 : ℚ), -1] ![![1, 0], ![0, 1]] := by
  have hE : ValidEigen !![(1 : ℚ), 0; 0, -1] ![1, -1] ![![1, 0], ![0, 1]] := by
    constructor
    · intro i j
      fin_cases i <;> fin_cases j <;>
        simp [Matrix.dotProduct, Fin.sum_univ_two]
    · ext i j
      rw [Fin.sum_univ_two]
      fin_cases i <;> fin_cases j <;> simp [Matrix.vecMulVec_apply]
  exact (proj_Snp_imp_spec _ _ _ hE).1

end ProjSnp

section SnpEval

variable {α : Type*} [LinearOrderedField α] {n : ℕ}

theorem proj_positive_of_nonneg (X : Matrix (Fin n) (Fin n) α) (h : ∀ i j, 0 ≤ X i j) :
    proj_positive X 0 = X := by
  ext i j
  simp [proj_positive, not_lt.mpr (h i j)]

theorem proj_positive_isSymm (X : Matrix (Fin n) (Fin n) α) (t : α) (h : X.IsSymm) :
    (proj_positive X t).IsSymm := by
  apply Matrix.IsSymm.ext
  intro i j
  simp only [proj_positive, Matrix.of_apply]
  rw [h.apply i j]

theorem proj_Snp_imp_of_nonneg (Y : Matrix (Fin n) (Fin n) α) (lam : Fin n → α)
    (v : Fin n → Fin n → α) (h : ∀ i, 0 ≤ lam i) : proj_Snp_imp Y lam v = Y := by
  have h0 : negCount lam = 0 := by
    rw [negCount, Finset.card_eq_zero, Finset.filter_eq_empty_iff]
    intro i _
    exact not_lt.mpr (h i)
  rw [proj_Snp_imp, if_pos h0]

theorem proj_lin_Hsymmetric_two (d o K : α) :
    proj_lin_Hsymmetric !![d, o; o, d] K = !![K/2, 1 - K/2; 1 - K/2, K/2] := by
  ext i j
  fin_cases i <;> fin_cases j <;>
    simp [proj_lin_Hsymmetric, operator_lstarllstarinv_sym, operator_lstarllstarinv,
      rowSum, Matrix.trace, Matrix.diag, Fin.sum_univ_two, Matrix.diagonal_apply,
      Matrix.vecHead, Matrix.vecTail, Fin.ext_iff] <;> ring

theorem frobSq_two (M : Matrix (Fin 2) (Fin 2) α) :
    frobSq M = M 0 0 ^ 2 + M 0 1 ^ 2 + M 1 0 ^ 2 + M 1 1 ^ 2 := by
  simp [frobSq, Fin.sum_univ_two]
  ring

end SnpEval

section Solver

open scoped Classical

variable {n : ℕ}

/-- Frobenius norm: `np.linalg.norm` of a matrix (and of the raveled stack of
matrices, which is the square root of the summed squared entries). -/
noncomputable def frobNorm (A : Matrix (Fin n) (Fin n) ℝ) : ℝ := Real.sqrt (frobSq A)

/-- The module-level tolerance `epsilon = 1e-8`. -/
noncomputable def epsilon : ℝ := 1e-8

/-- `is_primal_high(res_primal, X, Y, Z)`. -/
def is_primal_high (res_primal : ℝ) (X Y Z : Matrix (Fin n) (Fin n) ℝ) : Prop :=
  res_primal > epsilon * max (frobNorm X) (max (frobNorm Y) (frobNorm Z))

/-- `is_dual_high(res_dual, Y, Z)`: note the tolerance sums `sqrt n`, `‖Y‖`
and `‖Z‖` but not `‖X‖`. -/
def is_dual_high (res_dual : ℝ) (Y Z : Matrix (Fin n) (Fin n) ℝ) : Prop :=
  res_dual > epsilon * (Real.sqrt n + frobNorm Y + frobNorm Z)

/-- An eigendecomposition oracle standing for `scipy.linalg.eigh`: for each
matrix it yields eigenvalues and eigenvectors (valid on symmetric inputs,
which is a hypothesis of the theorems that need it). -/
def EigOracle (n : ℕ) : Type :=
  Matrix (Fin n) (Fin n) ℝ → (Fin n → ℝ) × (Fin n → Fin n → ℝ)

/-- The solver state: primal variables `X, Y, Z`, consensus `Xbar` and dual
variables `U, V, W`. -/
@[ext]
structure ADMMState (n : ℕ) where
  X : Matrix (Fin n) (Fin n) ℝ
  Y : Matrix (Fin n) (Fin n) ℝ
  Z : Matrix (Fin n) (Fin n) ℝ
  Xbar : Matrix (Fin n) (Fin n) ℝ
  U : Matrix (Fin n) (Fin n) ℝ
  V : Matrix (Fin n) (Fin n) ℝ
  W : Matrix (Fin n) (Fin n) ℝ

/-- One iteration of the `while` loop body of `pecok_admm` (before the
residual computation): the three projections on shifted copies of `Xbar`, the
new consensus average, then the three dual updates. -/
noncomputable def admm_step (eig : EigOracle n) (Rn : Matrix (Fin n) (Fin n) ℝ)
    (K rho : ℝ) (s : ADMMState n) : ADMMState n :=
  let X := proj_lin_Hsymmetric (s.Xbar - s.U + (1 / rho) • Rn) K
  let Y := proj_positive (s.Xbar - s.V) 0
  let Z := proj_Snp_imp (s.Xbar - s.W) (eig (s.Xbar - s.W)).1 (eig (s.Xbar - s.W)).2
  let Xbar := ((1 : ℝ) / 3) • (X + Y + Z)
  ⟨X, Y, Z, Xbar, s.U + X - Xbar, s.V + Y - Xbar, s.W + Z - Xbar⟩

/-- `res_primal`: `np.linalg.norm((X-Xbar, Z-Xbar, Y-Xbar))`, the Frobenius
norm of the raveled concatenation. -/
noncomputable def res_primal_of (s : ADMMState n) : ℝ :=
  Real.sqrt (frobSq (s.X - s.Xbar) + frobSq (s.Z - s.Xbar) + frobSq (s.Y - s.Xbar))

/-- The observable outcome of a run: final state, executed iteration count,
and the two final residuals (printed by the source as diagnostics). -/
structure ADMMResult (n : ℕ) where
  state : ADMMState n
  n_iter : ℕ
  res_primal : ℝ
  res_dual : ℝ

/-- The `while n_iter < n_iter_max` loop of `pecok_admm`, by fuel: each pass
runs one `admm_step`, computes the residuals, and breaks when neither
`is_primal_high` nor `is_dual_high` holds.  The carried `rp`, `rd` are the
residuals of the previous iteration (returned when fuel runs out). -/
noncomputable def admm_loop (eig : EigOracle n) (Rn : Matrix (Fin n) (Fin n) ℝ)
    (K rho : ℝ) : ℕ → ADMMState n → ℝ → ℝ → ADMMResult n
  | 0, s, rp, rd => ⟨s, 0, rp, rd⟩
  | fuel + 1, s, _, _ =>
    let s' := admm_step eig Rn K rho s
    let rd' := rho * frobNorm (s'.Xbar - s.Xbar)
    let rp' := res_primal_of s'
    if is_primal_high rp' s'.X s'.Y s'.Z ∨ is_dual_high rd' s'.Y s'.Z then
      let r := admm_loop eig Rn K rho fuel s' rp' rd'
      ⟨r.state, r.n_iter + 1, r.res_primal, r.res_dual⟩
    else ⟨s', 1, rp', rd'⟩

/-- Initial state: `X = Y = Z = identity`, `U = V = W = 0`,
`Xbar = (X + Y + Z)/3`. -/
noncomputable def initState (n : ℕ) : ADMMState n :=
  ⟨1, 1, 1, ((1 : ℝ) / 3) • ((1 : Matrix (Fin n) (Fin n) ℝ) + 1 + 1), 0, 0, 0⟩

/-- Module-level default iteration budget `n_max = 3000`. -/
def n_max : ℕ := 3000

/-- A full run: normalize the input once by its Frobenius norm, then loop
from the initial state. -/
noncomputable def admm_run (eig : EigOracle n) (R : Matrix (Fin n) (Fin n) ℝ)
    (K : ℝ) (n_iter_max : ℕ) (rho : ℝ) : ADMMResult n :=
  admm_loop eig ((1 / frobNorm R) • R) K rho n_iter_max (initState n) 0 0

/-- `pecok_admm(relational_data, K, n_iter_max, rho)`: run and return the
final `Z` (the only returned quantity). -/
noncomputable def pecok_admm (eig : EigOracle n) (R : Matrix (Fin n) (Fin n) ℝ)
    (K : ℝ) (n_iter_max : ℕ) (rho : ℝ) : Matrix (Fin n) (Fin n) ℝ :=
  (admm_run eig R K n_iter_max rho).state.Z

/-- The source entry point at its default parameters
`n_iter_max = n_max = 3000` and `rho = 1.0`. -/
noncomputable def pecok_admm_default (eig : EigOracle n) (R : Matrix (Fin n) (Fin n) ℝ)
    (K : ℝ) : Matrix (Fin n) (Fin n) ℝ :=
  pecok_admm eig R K n_max 1

/-- C4: each iteration computes, in order, `X` by the symmetric affine
projection of `Xbar - U + R/rho`, `Y` by clamping `Xbar - V`, `Z` by the PSD
projection of `Xbar - W`, then `Xbar` as the average `(X+Y+Z)/3`, then the
dual updates using the new values; the state starts at
`X = Y = Z = identity`, `U = V = W = 0`; and the input matrix is divided once
by its Frobenius norm before the loop and never modified afterwards. -/
theorem admm_iteration_structure (eig : EigOracle n) (Rn R : Matrix (Fin n) (Fin n) ℝ)
    (K rho : ℝ) (s : ADMMState n) (fuel : ℕ) :
    (admm_step eig Rn K rho s).X
        = proj_lin_Hsymmetric (s.Xbar - s.U + (1 / rho) • Rn) K ∧
    (admm_step eig Rn K rho s).Y = proj_positive (s.Xbar - s.V) 0 ∧
    (admm_step eig Rn K rho s).Z
        = proj_Snp_imp (s.Xbar - s.W) (eig (s.Xbar - s.W)).1 (eig (s.Xbar - s.W)).2 ∧
    (admm_step eig Rn K rho s).Xbar
        = ((1 : ℝ) / 3) • ((admm_step eig Rn K rho s).X + (admm_step eig Rn K rho s).Y
            + (admm_step eig Rn K rho s).Z) ∧
    (admm_step eig Rn K rho s).U
        = s.U + (admm_step eig Rn K rho s).X - (admm_step eig Rn K rho s).Xbar ∧
    (admm_step eig Rn K rho s).V
        = s.V + (admm_step eig Rn K rho s).Y - (admm_step eig Rn K rho s).Xbar ∧
    (admm_step eig Rn K rho s).W
        = s.W + (admm_step eig Rn K rho s).Z - (admm_step eig Rn K rho s).Xbar ∧
    (initState n).X = 1 ∧ (initState n).Y = 1 ∧ (initState n).Z = 1 ∧
    (initState n).U = 0 ∧ (initState n).V = 0 ∧ (initState n).W = 0 ∧
    (initState n).Xbar = ((1 : ℝ) / 3) • ((initState n).X + (initState n).Y
        + (initState n).Z) ∧
    admm_run eig R K fuel rho
        = admm_loop eig ((1 / frobNorm R) • R) K rho fuel (initState n) 0 0 :=
  ⟨rfl, rfl, rfl, rfl, rfl, rfl, rfl, rfl, rfl, rfl, rfl, rfl, rfl, rfl, rfl⟩

theorem admm_loop_niter_le (eig : EigOracle n) (Rn : Matrix (Fin n) (Fin n) ℝ)
    (K rho : ℝ) (fuel : ℕ) :
    ∀ (s : ADMMState n) (rp rd : ℝ),
      (admm_loop eig Rn K rho fuel s rp rd).n_iter ≤ fuel := by
  induction fuel with
  | zero => intro s rp rd; simp [admm_loop]
  | succ fuel ih =>
    intro s rp rd
    simp only [admm_loop]
    split
    · have := ih (admm_step eig Rn K rho s)
        (res_primal_of (admm_step eig Rn K rho s))
        (rho * frobNorm ((admm_step eig Rn K rho s).Xbar - s.Xbar))
      simpa using Nat.add_le_add_right this 1
    · simp

theorem admm_loop_niter_pos (eig : EigOracle n) (Rn : Matrix (Fin n) (Fin n) ℝ)
    (K rho : ℝ) (fuel : ℕ) (s : ADMMState n) (rp rd : ℝ) :
    1 ≤ (admm_loop eig Rn K rho (fuel + 1) s rp rd).n_iter := by
  simp only [admm_loop]
  split
  · simp
  · simp

/-- C6: the loop executes at most `n_iter_max` iterations and always returns
(the final `Z`), whether or not the residual test ever passed; the defaults
are `n_iter_max = n_max = 3000` and `rho = 1.0`. -/
theorem pecok_admm_terminates (eig : EigOracle n) (R : Matrix (Fin n) (Fin n) ℝ)
    (K : ℝ) (fuel : ℕ) (rho : ℝ) :
    (admm_run eig R K fuel rho).n_iter ≤ fuel ∧
    pecok_admm eig R K fuel rho = (admm_run eig R K fuel rho).state.Z ∧
    pecok_admm_default eig R K = pecok_admm eig R K 3000 1 ∧
    n_max = 3000 :=
  ⟨admm_loop_niter_le eig _ K rho fuel _ 0 0, rfl, rfl, rfl⟩

theorem dual_sum_step (U V W X Y Z : Matrix (Fin n) (Fin n) ℝ) (h : U + V + W = 0) :
    (U + X - ((1 : ℝ) / 3) • (X + Y + Z)) + (V + Y - ((1 : ℝ) / 3) • (X + Y + Z))
      + (W + Z - ((1 : ℝ) / 3) • (X + Y + Z)) = 0 := by
  have h3 : ((1 : ℝ) / 3) • (X + Y + Z) + ((1 : ℝ) / 3) • (X + Y + Z)
      + ((1 : ℝ) / 3) • (X + Y + Z) = X + Y + Z := by
    rw [← add_smul, ← add_smul]
    norm_num
  have hcalc : (U + X - ((1 : ℝ) / 3) • (X + Y + Z)) + (V + Y - ((1 : ℝ) / 3) • (X + Y + Z))
      + (W + Z - ((1 : ℝ) / 3) • (X + Y + Z))
      = (U + V + W) + ((X + Y + Z) - (((1 : ℝ) / 3) • (X + Y + Z)
          + ((1 : ℝ) / 3) • (X + Y + Z) + ((1 : ℝ) / 3) • (X + Y + Z))) := by
    abel
  rw [hcalc, h, h3]
  simp

theorem admm_step_dual_sum (eig : EigOracle n) (Rn : Matrix (Fin n) (Fin n) ℝ)
    (K rho : ℝ) (s : ADMMState n) (h : s.U + s.V + s.W = 0) :
    (admm_step eig Rn K rho s).U + (admm_step eig Rn K rho s).V
      + (admm_step eig Rn K rho s).W = 0 :=
  dual_sum_step s.U s.V s.W _ _ _ h

theorem admm_loop_dual_sum (eig : EigOracle n) (Rn : Matrix (Fin n) (Fin n) ℝ)
    (K rho : ℝ) (fuel : ℕ) :
    ∀ (s : ADMMState n) (rp rd : ℝ), s.U + s.V + s.W = 0 →
      (admm_loop eig Rn K rho fuel s rp rd).state.U
        + (admm_loop eig Rn K rho fuel s rp rd).state.V
        + (admm_loop eig Rn K rho fuel s rp rd).state.W = 0 := by
  induction fuel with
  | zero => intro s rp rd h; simpa [admm_loop] using h
  | succ fuel ih =>
    intro s rp rd h
    simp only [admm_loop]
    split
    · exact ih _ _ _ (admm_step_dual_sum eig Rn K rho s h)
    · exact admm_step_dual_sum eig Rn K rho s h

/-- C10: the three dual variables sum to the zero matrix before the first
iteration and after every iteration of every run, because the consensus is
always the mean of `X`, `Y`, `Z`. -/
theorem admm_dual_sum_invariant (eig : EigOracle n) (R : Matrix (Fin n) (Fin n) ℝ)
    (K rho : ℝ) (fuel : ℕ) :
    (initState n).U + (initState n).V + (initState n).W = 0 ∧
    (admm_run eig R K fuel rho).state.U + (admm_run eig R K fuel rho).state.V
      + (admm_run eig R K fuel rho).state.W = 0 := by
  have hinit : (initState n).U + (initState n).V + (initState n).W = 0 := by
    show (0 : Matrix (Fin n) (Fin n) ℝ) + 0 + 0 = 0
    simp
  exact ⟨hinit, admm_loop_dual_sum eig _ K rho fuel _ 0 0 hinit⟩

/-- C5: after each iteration the loop computes the dual residual
`rho * ‖Xbar_new - Xbar_old‖_F` and the primal residual as the joint
Frobenius norm of `(X-Xbar, Z-Xbar, Y-Xbar)`, and it continues (runs a
second iteration when fuel remains) exactly when the primal residual exceeds
`epsilon * max(‖X‖, ‖Y‖, ‖Z‖)` or the dual residual exceeds
`epsilon * (sqrt n + ‖Y‖ + ‖Z‖)` — the dual tolerance omitting `‖X‖` — with
`epsilon = 1e-8`. -/
theorem admm_stopping_rule (eig : EigOracle n) (Rn : Matrix (Fin n) (Fin n) ℝ)
    (K rho : ℝ) (fuel : ℕ) (s : ADMMState n) (rp rd : ℝ) :
    (2 ≤ (admm_loop eig Rn K rho (fuel + 2) s rp rd).n_iter ↔
      (res_primal_of (admm_step eig Rn K rho s)
          > epsilon * max (frobNorm (admm_step eig Rn K rho s).X)
              (max (frobNorm (admm_step eig Rn K rho s).Y)
                (frobNorm (admm_step eig Rn K rho s).Z)) ∨
       rho * frobNorm ((admm_step eig Rn K rho s).Xbar - s.Xbar)
          > epsilon * (Real.sqrt n + frobNorm (admm_step eig Rn K rho s).Y
              + frobNorm (admm_step eig Rn K rho s).Z))) ∧
    res_primal_of (admm_step eig Rn K rho s)
      = Real.sqrt (frobSq ((admm_step eig Rn K rho s).X - (admm_step eig Rn K rho s).Xbar)
          + frobSq ((admm_step eig Rn K rho s).Z - (admm_step eig Rn K rho s).Xbar)
          + frobSq ((admm_step eig Rn K rho s).Y - (admm_step eig Rn K rho s).Xbar)) ∧
    epsilon = 1e-8 := by
  refine ⟨?_, rfl, rfl⟩
  show 2 ≤ (admm_loop eig Rn K rho (fuel + 1 + 1) s rp rd).n_iter ↔ _
  simp only [admm_loop]
  by_cases hc : is_primal_high (res_primal_of (admm_step eig Rn K rho s))
      (admm_step eig Rn K rho s).X (admm_step eig Rn K rho s).Y
      (admm_step eig Rn K rho s).Z ∨
    is_dual_high (rho * frobNorm ((admm_step eig Rn K rho s).Xbar - s.Xbar))
      (admm_step eig Rn K rho s).Y (admm_step eig Rn K rho s).Z
  · rw [if_pos hc]
    constructor
    · intro _
      exact hc
    · intro _
      have h1 := admm_loop_niter_pos eig Rn K rho fuel (admm_step eig Rn K rho s)
        (res_primal_of (admm_step eig Rn K rho s))
        (rho * frobNorm ((admm_step eig Rn K rho s).Xbar - s.Xbar))
      simpa using Nat.add_le_add_right h1 1
  · rw [if_neg hc]
    constructor
    · intro h2
      exfalso
      simp at h2
    · intro hcond
      exact absurd hcond hc

end Solver

section SymPSD

variable {n : ℕ}

/-- All components of the solver state are symmetric matrices. -/
def StateSymm (s : ADMMState n) : Prop :=
  s.X.IsSymm ∧ s.Y.IsSymm ∧ s.Z.IsSymm ∧ s.Xbar.IsSymm ∧ s.U.IsSymm ∧ s.V.IsSymm
    ∧ s.W.IsSymm

theorem isPSD_one : isPSD (1 : Matrix (Fin n) (Fin n) ℝ) := by
  intro x
  rw [Matrix.one_mulVec]
  exact Finset.sum_nonneg fun i _ => mul_self_nonneg (x i)

theorem admm_step_preserves (eig : EigOracle n) (Rn : Matrix (Fin n) (Fin n) ℝ)
    (K rho : ℝ)
    (heig : ∀ M : Matrix (Fin n) (Fin n) ℝ, M.IsSymm → ValidEigen M (eig M).1 (eig M).2)
    (hRn : Rn.IsSymm) (s : ADMMState n) (hs : StateSymm s) :
    StateSymm (admm_step eig Rn K rho s) ∧ isPSD (admm_step eig Rn K rho s).Z := by
  obtain ⟨_, _, _, hXbar, hU, hV, hW⟩ := hs
  have hA1 : (s.Xbar - s.U + (1 / rho) • Rn).IsSymm := (hXbar.sub hU).add (hRn.smul _)
  have hA2 : (s.Xbar - s.V).IsSymm := hXbar.sub hV
  have hA3 : (s.Xbar - s.W).IsSymm := hXbar.sub hW
  have hE := heig _ hA3
  have hZeq : (admm_step eig Rn K rho s).Z
      = ∑ i ∈ Finset.univ.filter (fun i => 0 ≤ (eig (s.Xbar - s.W)).1 i),
          (eig (s.Xbar - s.W)).1 i
            • Matrix.vecMulVec ((eig (s.Xbar - s.W)).2 i) ((eig (s.Xbar - s.W)).2 i) :=
    proj_Snp_imp_eq_filter _ _ _ hE.2
  have hX' : (admm_step eig Rn K rho s).X.IsSymm := proj_lin_Hsymmetric_isSymm _ K hA1
  have hY' : (admm_step eig Rn K rho s).Y.IsSymm := proj_positive_isSymm _ 0 hA2
  have hZ' : (admm_step eig Rn K rho s).Z.IsSymm := by
    rw [hZeq]
    exact vecMulVec_smul_sum_isSymm _ _ _
  have hXb' : (admm_step eig Rn K rho s).Xbar.IsSymm := ((hX'.add hY').add hZ').smul _
  refine ⟨⟨hX', hY', hZ', hXb', ?_, ?_, ?_⟩, ?_⟩
  · exact (hU.add hX').sub hXb'
  · exact (hV.add hY').sub hXb'
  · exact (hW.add hZ').sub hXb'
  · rw [hZeq]
    exact isPSD_sum_vecMulVec _ _ _ fun i hi => (Finset.mem_filter.mp hi).2

theorem admm_loop_symm_psd (eig : EigOracle n) (Rn : Matrix (Fin n) (Fin n) ℝ)
    (K rho : ℝ)
    (heig : ∀ M : Matrix (Fin n) (Fin n) ℝ, M.IsSymm → ValidEigen M (eig M).1 (eig M).2)
    (hRn : Rn.IsSymm) (fuel : ℕ) :
    ∀ (s : ADMMState n) (rp rd : ℝ), StateSymm s → isPSD s.Z →
      StateSymm (admm_loop eig Rn K rho fuel s rp rd).state
        ∧ isPSD (admm_loop eig Rn K rho fuel s rp rd).state.Z := by
  induction fuel with
  | zero => intro s rp rd hs hz; exact ⟨hs, hz⟩
  | succ fuel ih =>
    intro s rp rd hs _
    have hstep := admm_step_preserves eig Rn K rho heig hRn s hs
    simp only [admm_loop]
    split
    · exact ih _ _ _ hstep.1 hstep.2
    · exact hstep

/-- C1: for a symmetric input `R` (with `n ≥ 2` and `1 ≤ K ≤ n`) and a valid
eigendecomposition oracle, the matrix returned by `pecok_admm` is symmetric
and positive semi-definite, and it is exactly the final `Z` of the run (the
only quantity returned). -/
theorem pecok_admm_symm_psd (eig : EigOracle n) (R : Matrix (Fin n) (Fin n) ℝ)
    (K : ℝ) (fuel : ℕ) (rho : ℝ) (_hn : 2 ≤ n) (_hK1 : 1 ≤ K) (_hK2 : K ≤ (n : ℝ))
    (hR : R.IsSymm)
    (heig : ∀ M : Matrix (Fin n) (Fin n) ℝ, M.IsSymm → ValidEigen M (eig M).1 (eig M).2) :
    (pecok_admm eig R K fuel rho).IsSymm ∧ isPSD (pecok_admm eig R K fuel rho) ∧
    pecok_admm eig R K fuel rho = (admm_run eig R K fuel rho).state.Z := by
  have hRn : ((1 / frobNorm R) • R).IsSymm := hR.smul _
  have hinitSymm : StateSymm (initState n) :=
    ⟨Matrix.isSymm_one, Matrix.isSymm_one, Matrix.isSymm_one,
      ((Matrix.isSymm_one.add Matrix.isSymm_one).add Matrix.isSymm_one).smul _,
      Matrix.isSymm_zero, Matrix.isSymm_zero, Matrix.isSymm_zero⟩
  have h := admm_loop_symm_psd eig _ K rho heig hRn fuel (initState n) 0 0 hinitSymm
    isPSD_one
  exact ⟨h.1.2.2.1, h.2, rfl⟩

end SymPSD

section Oracles

open scoped Classical

variable {n : ℕ}

/-- An eigendecomposition oracle for real symmetric matrices built from the
spectral theorem (a concrete stand-in for `scipy.linalg.eigh`). -/
noncomputable def mathlibEig (M : Matrix (Fin n) (Fin n) ℝ) :
    (Fin n → ℝ) × (Fin n → Fin n → ℝ) :=
  if h : M.IsHermitian then (h.eigenvalues, fun i j => h.eigenvectorBasis i j)
  else (0, fun _ _ => 0)

theorem isHermitian_of_isSymm (M : Matrix (Fin n) (Fin n) ℝ) (hM : M.IsSymm) :
    M.IsHermitian := by
  rw [Matrix.IsHermitian, Matrix.conjTranspose_eq_transpose_of_trivial]
  exact hM

theorem mathlibEig_valid (M : Matrix (Fin n) (Fin n) ℝ) (hM : M.IsSymm) :
    ValidEigen M (mathlibEig M).1 (mathlibEig M).2 := by
  have hH : M.IsHermitian := isHermitian_of_isSymm M hM
  simp only [mathlibEig, dif_pos hH]
  constructor
  · intro i j
    have horth := hH.eigenvectorBasis.orthonormal
    rw [orthonormal_iff_ite] at horth
    have h2 := horth i j
    simpa [PiLp.inner_apply, RCLike.inner_apply, starRingEnd_apply, Matrix.dotProduct]
      using h2
  · conv_lhs => rw [hH.spectral_theorem]
    ext a b
    rw [Matrix.mul_apply]
    simp only [Matrix.mul_diagonal, Matrix.star_apply, star_trivial,
      Matrix.IsHermitian.eigenvectorUnitary_apply, Function.comp_apply,
      Matrix.sum_apply, Matrix.smul_apply, Matrix.vecMulVec_apply, smul_eq_mul]
    refine Finset.sum_congr rfl fun k _ => ?_
    simp [RCLike.ofReal_real_eq_id]
    ring

/-- An oracle for `2×2` matrices that answers symmetric equal-diagonal
matrices with the explicit eigendecomposition along `(1,1)/√2`, `(1,-1)/√2`
and defers to `mathlibEig` otherwise. -/
noncomputable def eigOracle2 : EigOracle 2 := fun M =>
  if M 0 0 = M 1 1 ∧ M 1 0 = M 0 1 then
    (![M 0 0 - M 0 1, M 0 0 + M 0 1],
     ![![(Real.sqrt 2)⁻¹, -(Real.sqrt 2)⁻¹], ![(Real.sqrt 2)⁻¹, (Real.sqrt 2)⁻¹]])
  else mathlibEig M

theorem sqrt_two_inv_mul_self : ((Real.sqrt 2)⁻¹ * (Real.sqrt 2)⁻¹ : ℝ) = 2⁻¹ := by
  rw [← mul_inv, Real.mul_self_sqrt (by norm_num : (0:ℝ) ≤ 2)]

theorem sqrt_two_inv_sq : (((Real.sqrt 2)⁻¹ : ℝ)) ^ 2 = 1 / 2 := by
  rw [inv_pow, Real.sq_sqrt (by norm_num : (0:ℝ) ≤ 2)]
  norm_num

theorem eigOracle2_valid (M : Matrix (Fin 2) (Fin 2) ℝ) (hM : M.IsSymm) :
    ValidEigen M (eigOracle2 M).1 (eigOracle2 M).2 := by
  by_cases hc : M 0 0 = M 1 1 ∧ M 1 0 = M 0 1
  · simp only [eigOracle2, if_pos hc]
    constructor
    · intro i j
      fin_cases i <;> fin_cases j <;>
        simp only [Fin.mk_zero, Fin.mk_one, Matrix.dotProduct, Fin.sum_univ_two,
          Matrix.cons_val_zero, Matrix.cons_val_one, Matrix.head_cons] <;>
        norm_num <;>
        rw [sqrt_two_inv_mul_self] <;>
        norm_num
    · ext a b
      rw [Fin.sum_univ_two]
      fin_cases a <;> fin_cases b <;>
        simp only [Fin.mk_zero, Fin.mk_one, Matrix.add_apply, Matrix.smul_apply,
          Matrix.vecMulVec_apply, smul_eq_mul, Matrix.cons_val_zero, Matrix.cons_val_one,
          Matrix.head_cons] <;>
        first
          | linear_combination (-2 * M 0 0 : ℝ) * sqrt_two_inv_sq
          | linear_combination (-2 * M 0 1 : ℝ) * sqrt_two_inv_sq
          | linear_combination hc.2 + (-2 * M 0 1 : ℝ) * sqrt_two_inv_sq
          | linear_combination (-1 : ℝ) * hc.1 + (-2 * M 0 0 : ℝ) * sqrt_two_inv_sq
  · simp only [eigOracle2, if_neg hc]
    exact mathlibEig_valid M hM

/-- C1 witness: the symmetry/PSD theorem applied to the all-ones `2×2`
relational matrix with `K = 1` at the default parameters. -/
theorem pecok_admm_symm_psd_witness :
    (pecok_admm eigOracle2 (Matrix.of fun _ _ => (1 : ℝ)) 1 3000 1).IsSymm ∧
    isPSD (pecok_admm eigOracle2 (Matrix.of fun _ _ => (1 : ℝ)) 1 3000 1) := by
  have h := pecok_admm_symm_psd eigOracle2 (Matrix.of fun _ _ => (1 : ℝ)) 1 3000 1
    (by norm_num) (by norm_num) (by norm_num)
    (Matrix.IsSymm.ext fun i j => rfl) eigOracle2_valid
  exact ⟨h.1, h.2.1⟩

end Oracles

section BudgetRun

open scoped Classical

variable {n : ℕ}

theorem admm_loop_one (eig : EigOracle n) (Rn : Matrix (Fin n) (Fin n) ℝ)
    (K rho : ℝ) (s : ADMMState n) (rp rd : ℝ) :
    admm_loop eig Rn K rho 1 s rp rd
      = ⟨admm_step eig Rn K rho s, 1, res_primal_of (admm_step eig Rn K rho s),
         rho * frobNorm ((admm_step eig Rn K rho s).Xbar - s.Xbar)⟩ := by
  show admm_loop eig Rn K rho (0 + 1) s rp rd = _
  simp only [admm_loop]
  split <;> rfl

/-- The all-ones `2×2` relational matrix. -/
noncomputable def J2 : Matrix (Fin 2) (Fin 2) ℝ := Matrix.of fun _ _ => 1

/-- State after one iteration on `J2` with `K = 1`, `rho = 1`. -/
noncomputable def admmS1 : ADMMState 2 :=
  ⟨!![(1:ℝ)/2, 1/2; 1/2, 1/2], !![(1:ℝ), 0; 0, 1], !![(1:ℝ), 0; 0, 1],
   !![(5:ℝ)/6, 1/6; 1/6, 5/6], !![(-1:ℝ)/3, 1/3; 1/3, -1/3],
   !![(1:ℝ)/6, -1/6; -1/6, 1/6], !![(1:ℝ)/6, -1/6; -1/6, 1/6]⟩

/-- State after two iterations on `J2` with `K = 1`, `rho = 1`. -/
noncomputable def admmS2 : ADMMState 2 :=
  ⟨!![(1:ℝ)/2, 1/2; 1/2, 1/2], !![(2:ℝ)/3, 1/3; 1/3, 2/3], !![(2:ℝ)/3, 1/3; 1/3, 2/3],
   !![(11:ℝ)/18, 7/18; 7/18, 11/18], !![(-4:ℝ)/9, 4/9; 4/9, -4/9],
   !![(2:ℝ)/9, -2/9; -2/9, 2/9], !![(2:ℝ)/9, -2/9; -2/9, 2/9]⟩

theorem initState_two_Xbar : (initState 2).Xbar = !![(1:ℝ), 0; 0, 1] := by
  ext i j
  fin_cases i <;> fin_cases j <;>
    simp [initState, Matrix.one_apply] <;> norm_num

theorem eigOracle2_equal_diag (d o : ℝ) :
    (eigOracle2 !![d, o; o, d]).1 = ![d - o, d + o] := by
  have hc : (!![d, o; o, d]) 0 0 = (!![d, o; o, d]) 1 1
      ∧ (!![d, o; o, d]) 1 0 = (!![d, o; o, d]) 0 1 := by
    constructor <;> simp
  simp only [eigOracle2, if_pos hc]
  ext i
  fin_cases i <;> simp

theorem proj_Snp_imp_oracle_equal_diag (d o : ℝ) (hdo : 0 ≤ d - o) (hds : 0 ≤ d + o) :
    proj_Snp_imp !![d, o; o, d] (eigOracle2 !![d, o; o, d]).1
      (eigOracle2 !![d, o; o, d]).2 = !![d, o; o, d] := by
  apply proj_Snp_imp_of_nonneg
  rw [eigOracle2_equal_diag]
  intro i
  fin_cases i
  · simpa using hdo
  · simpa using hds

theorem step_init :
    admm_step eigOracle2 !![(1:ℝ)/2, 1/2; 1/2, 1/2] 1 1 (initState 2) = admmS1 := by
  have hin1 : (initState 2).Xbar - (initState 2).U
      + ((1:ℝ) / 1) • !![(1:ℝ)/2, 1/2; 1/2, 1/2] = !![(3:ℝ)/2, 1/2; 1/2, 3/2] := by
    rw [initState_two_Xbar]
    show _ - (0 : Matrix (Fin 2) (Fin 2) ℝ) + _ = _
    ext i j
    fin_cases i <;> fin_cases j <;> simp <;> norm_num
  have hin2 : (initState 2).Xbar - (initState 2).V = !![(1:ℝ), 0; 0, 1] := by
    show _ - (0 : Matrix (Fin 2) (Fin 2) ℝ) = _
    rw [sub_zero, initState_two_Xbar]
  have hin3 : (initState 2).Xbar - (initState 2).W = !![(1:ℝ), 0; 0, 1] := hin2
  have hX1 : proj_lin_Hsymmetric ((initState 2).Xbar - (initState 2).U
      + ((1:ℝ) / 1) • !![(1:ℝ)/2, 1/2; 1/2, 1/2]) 1 = !![(1:ℝ)/2, 1/2; 1/2, 1/2] := by
    rw [hin1, proj_lin_Hsymmetric_two]
    ext i j
    fin_cases i <;> fin_cases j <;> norm_num
  have hY1 : proj_positive ((initState 2).Xbar - (initState 2).V) 0
      = !![(1:ℝ), 0; 0, 1] := by
    rw [hin2]
    apply proj_positive_of_nonneg
    intro i j
    fin_cases i <;> fin_cases j <;> norm_num
  have hZ1 : proj_Snp_imp ((initState 2).Xbar - (initState 2).W)
      (eigOracle2 ((initState 2).Xbar - (initState 2).W)).1
      (eigOracle2 ((initState 2).Xbar - (initState 2).W)).2 = !![(1:ℝ), 0; 0, 1] := by
    rw [hin3]
    rw [show (!![(1:ℝ), 0; 0, 1]) = !![(1:ℝ), 0; 0, 1] from rfl] at hin3
    have := proj_Snp_imp_oracle_equal_diag (d := 1) (o := 0) (by norm_num) (by norm_num)
    simpa using this
  simp only [admm_step]
  rw [hX1, hY1, hZ1]
  refine ADMMState.ext ?_ ?_ ?_ ?_ ?_ ?_ ?_ <;>
    · show _ = _
      ext i j
      fin_cases i <;> fin_cases j <;>
        simp [admmS1, initState, Matrix.vecHead, Matrix.vecTail] <;> norm_num

theorem step_s1 :
    admm_step eigOracle2 !![(1:ℝ)/2, 1/2; 1/2, 1/2] 1 1 admmS1 = admmS2 := by
  have hin1 : admmS1.Xbar - admmS1.U
      + ((1:ℝ) / 1) • !![(1:ℝ)/2, 1/2; 1/2, 1/2] = !![(5:ℝ)/3, 1/3; 1/3, 5/3] := by
    ext i j
    fin_cases i <;> fin_cases j <;>
      simp [admmS1, Matrix.vecHead, Matrix.vecTail] <;> norm_num
  have hin2 : admmS1.Xbar - admmS1.V = !![(2:ℝ)/3, 1/3; 1/3, 2/3] := by
    ext i j
    fin_cases i <;> fin_cases j <;>
      simp [admmS1, Matrix.vecHead, Matrix.vecTail] <;> norm_num
  have hin3 : admmS1.Xbar - admmS1.W = !![(2:ℝ)/3, 1/3; 1/3, 2/3] := by
    ext i j
    fin_cases i <;> fin_cases j <;>
      simp [admmS1, Matrix.vecHead, Matrix.vecTail] <;> norm_num
  have hX2 : proj_lin_Hsymmetric (admmS1.Xbar - admmS1.U
      + ((1:ℝ) / 1) • !![(1:ℝ)/2, 1/2; 1/2, 1/2]) 1 = !![(1:ℝ)/2, 1/2; 1/2, 1/2] := by
    rw [hin1, proj_lin_Hsymmetric_two]
    ext i j
    fin_cases i <;> fin_cases j <;> norm_num
  have hY2 : proj_positive (admmS1.Xbar - admmS1.V) 0 = !![(2:ℝ)/3, 1/3; 1/3, 2/3] := by
    rw [hin2]
    apply proj_positive_of_nonneg
    intro i j
    fin_cases i <;> fin_cases j <;> norm_num
  have hZ2 : proj_Snp_imp (admmS1.Xbar - admmS1.W)
      (eigOracle2 (admmS1.Xbar - admmS1.W)).1
      (eigOracle2 (admmS1.Xbar - admmS1.W)).2 = !![(2:ℝ)/3, 1/3; 1/3, 2/3] := by
    rw [hin3]
    have := proj_Snp_imp_oracle_equal_diag (d := 2/3) (o := 1/3) (by norm_num) (by norm_num)
    simpa using this
  simp only [admm_step]
  rw [hX2, hY2, hZ2]
  refine ADMMState.ext ?_ ?_ ?_ ?_ ?_ ?_ ?_ <;>
    · show _ = _
      ext i j
      fin_cases i <;> fin_cases j <;>
        simp [admmS1, admmS2, Matrix.vecHead, Matrix.vecTail] <;> norm_num

theorem frobNorm_eq (M : Matrix (Fin n) (Fin n) ℝ) (c : ℝ) (h : frobSq M = c ^ 2)
    (hc : 0 ≤ c) : frobNorm M = c := by
  rw [frobNorm, h, Real.sqrt_sq hc]

theorem frobNorm_nonneg (M : Matrix (Fin n) (Fin n) ℝ) : 0 ≤ frobNorm M :=
  Real.sqrt_nonneg _

theorem epsilon_nonneg : (0 : ℝ) ≤ epsilon := by
  rw [show epsilon = 1e-8 from rfl]
  norm_num

theorem hRnJ2 : (1 / frobNorm J2) • J2 = !![(1:ℝ)/2, 1/2; 1/2, 1/2] := by
  have h4 : frobSq J2 = (2:ℝ) ^ 2 := by
    rw [frobSq_two]
    simp [J2]
    norm_num
  have h2 : frobNorm J2 = 2 := frobNorm_eq _ _ h4 (by norm_num)
  rw [h2]
  ext i j
  fin_cases i <;> fin_cases j <;> simp [J2]

theorem rd1_eq : (1:ℝ) * frobNorm (admmS1.Xbar - (initState 2).Xbar) = 1/3 := by
  rw [initState_two_Xbar]
  have h : frobSq (admmS1.Xbar - !![(1:ℝ), 0; 0, 1]) = (1/3 : ℝ) ^ 2 := by
    rw [frobSq_two]
    simp [admmS1, Matrix.vecHead, Matrix.vecTail]
    norm_num
  rw [frobNorm_eq _ _ h (by norm_num)]
  norm_num

theorem rd2_eq : (1:ℝ) * frobNorm (admmS2.Xbar - admmS1.Xbar) = 4/9 := by
  have h : frobSq (admmS2.Xbar - admmS1.Xbar) = (4/9 : ℝ) ^ 2 := by
    rw [frobSq_two]
    simp [admmS1, admmS2, Matrix.vecHead, Matrix.vecTail]
    norm_num
  rw [frobNorm_eq _ _ h (by norm_num)]
  norm_num

theorem sqrt_two_le_two : Real.sqrt 2 ≤ 2 := by
  nlinarith [Real.sq_sqrt (show (0:ℝ) ≤ 2 by norm_num), Real.sqrt_nonneg 2]

theorem frobNorm_S1Y_le : frobNorm admmS1.Y ≤ 2 := by
  have h : frobSq (admmS1.Y) = 2 := by
    rw [frobSq_two]
    simp [admmS1, Matrix.vecHead, Matrix.vecTail]
    norm_num
  rw [frobNorm, h]
  exact sqrt_two_le_two

theorem hdual1 : is_dual_high ((1:ℝ) * frobNorm (admmS1.Xbar - (initState 2).Xbar))
    admmS1.Y admmS1.Z := by
  show _ > _
  rw [rd1_eq]
  have hcast : Real.sqrt ((2:ℕ):ℝ) ≤ 2 := by
    rw [Nat.cast_ofNat]
    exact sqrt_two_le_two
  have hZ : frobNorm admmS1.Z ≤ 2 := frobNorm_S1Y_le
  have hbound : epsilon * (Real.sqrt ((2:ℕ):ℝ) + frobNorm admmS1.Y + frobNorm admmS1.Z)
      ≤ epsilon * (2 + 2 + 2) := by
    apply mul_le_mul_of_nonneg_left _ epsilon_nonneg
    exact add_le_add (add_le_add hcast frobNorm_S1Y_le) hZ
  have hlt : epsilon * (2 + 2 + 2 : ℝ) < 1/3 := by
    rw [show epsilon = 1e-8 from rfl]
    norm_num
  exact lt_of_le_of_lt hbound hlt

theorem run1_eq : admm_run eigOracle2 J2 1 1 1
    = ⟨admmS1, 1, res_primal_of admmS1,
       1 * frobNorm (admmS1.Xbar - (initState 2).Xbar)⟩ := by
  simp only [admm_run]
  rw [hRnJ2, admm_loop_one, step_init]

theorem run1_res_dual : (admm_run eigOracle2 J2 1 1 1).res_dual = 1/3 := by
  rw [run1_eq]
  exact rd1_eq

theorem run2_res_dual : (admm_run eigOracle2 J2 1 2 1).res_dual = 4/9 := by
  simp only [admm_run]
  rw [hRnJ2]
  show (admm_loop eigOracle2 !![(1:ℝ)/2, 1/2; 1/2, 1/2] 1 1 (1 + 1)
    (initState 2) 0 0).res_dual = _
  simp only [admm_loop]
  rw [step_init]
  rw [if_pos (Or.inr hdual1)]
  rw [step_s1]
  dsimp only
  split <;> exact rd2_eq

/-- C9 counterexample: on the all-ones `2×2` input with `K = 1`, `rho = 1`,
the run with budget `2` ends with a strictly larger dual residual than the
run with budget `1` (`4/9` versus `1/3`), so a larger iteration budget can
yield a worse final residual norm. -/
theorem admm_budget_residual_not_monotone :
    (admm_run eigOracle2 J2 1 1 1).res_dual < (admm_run eigOracle2 J2 1 2 1).res_dual := by
  rw [run1_res_dual, run2_res_dual]
  norm_num

/-- C9 (amended): once a budget suffices for the loop to stop early (fewer
iterations executed than allowed), every larger budget returns the identical
result — state, iteration count and residuals; without early stopping the
final residuals need not be monotone in the budget
(`admm_budget_residual_not_monotone`). -/
theorem admm_loop_stable_after_stop (eig : EigOracle n) (Rn : Matrix (Fin n) (Fin n) ℝ)
    (K rho : ℝ) :
    ∀ (f1 f2 : ℕ) (s : ADMMState n) (rp rd : ℝ), f1 ≤ f2 →
      (admm_loop eig Rn K rho f1 s rp rd).n_iter < f1 →
      admm_loop eig Rn K rho f2 s rp rd = admm_loop eig Rn K rho f1 s rp rd := by
  intro f1
  induction f1 with
  | zero =>
    intro f2 s rp rd _ h
    simp [admm_loop] at h
  | succ f1 ih =>
    intro f2 s rp rd hle h
    obtain ⟨f2', rfl⟩ : ∃ f2', f2 = f2' + 1 := ⟨f2 - 1, by omega⟩
    simp only [admm_loop] at h ⊢
    by_cases hc : is_primal_high (res_primal_of (admm_step eig Rn K rho s))
        (admm_step eig Rn K rho s).X (admm_step eig Rn K rho s).Y
        (admm_step eig Rn K rho s).Z ∨
      is_dual_high (rho * frobNorm ((admm_step eig Rn K rho s).Xbar - s.Xbar))
        (admm_step eig Rn K rho s).Y (admm_step eig Rn K rho s).Z
    · rw [if_pos hc] at h ⊢
      have h' : (admm_loop eig Rn K rho f1 (admm_step eig Rn K rho s)
          (res_primal_of (admm_step eig Rn K rho s))
          (rho * frobNorm ((admm_step eig Rn K rho s).Xbar - s.Xbar))).n_iter < f1 := by
        have h2 : (admm_loop eig Rn K rho f1 (admm_step eig Rn K rho s)
            (res_primal_of (admm_step eig Rn K rho s))
            (rho * frobNorm ((admm_step eig Rn K rho s).Xbar - s.Xbar))).n_iter + 1
            < f1 + 1 := h
        omega
      rw [ih f2' (admm_step eig Rn K rho s)
        (res_primal_of (admm_step eig Rn K rho s))
        (rho * frobNorm ((admm_step eig Rn K rho s).Xbar - s.Xbar))
        (by omega) h']
      rw [if_pos hc]
    · rw [if_neg hc]
      rw [if_neg hc]

/-- The exact fixed point of the iteration at `Rn = 0`, `K = 1`. -/
noncomputable def admmSfix : ADMMState 2 :=
  ⟨!![(1:ℝ)/2, 1/2; 1/2, 1/2], !![(1:ℝ)/2, 1/2; 1/2, 1/2], !![(1:ℝ)/2, 1/2; 1/2, 1/2],
   !![(1:ℝ)/2, 1/2; 1/2, 1/2], 0, 0, 0⟩

theorem step_fix : admm_step eigOracle2 (0 : Matrix (Fin 2) (Fin 2) ℝ) 1 1 admmSfix
    = admmSfix := by
  have hin1 : admmSfix.Xbar - admmSfix.U + ((1:ℝ) / 1) • (0 : Matrix (Fin 2) (Fin 2) ℝ)
      = !![(1:ℝ)/2, 1/2; 1/2, 1/2] := by
    ext i j
    fin_cases i <;> fin_cases j <;>
      simp [admmSfix, Matrix.vecHead, Matrix.vecTail]
  have hin2 : admmSfix.Xbar - admmSfix.V = !![(1:ℝ)/2, 1/2; 1/2, 1/2] := by
    ext i j
    fin_cases i <;> fin_cases j <;>
      simp [admmSfix, Matrix.vecHead, Matrix.vecTail]
  have hX : proj_lin_Hsymmetric (admmSfix.Xbar - admmSfix.U
      + ((1:ℝ) / 1) • (0 : Matrix (Fin 2) (Fin 2) ℝ)) 1 = !![(1:ℝ)/2, 1/2; 1/2, 1/2] := by
    rw [hin1, proj_lin_Hsymmetric_two]
    ext i j
    fin_cases i <;> fin_cases j <;> norm_num
  have hY : proj_positive (admmSfix.Xbar - admmSfix.V) 0 = !![(1:ℝ)/2, 1/2; 1/2, 1/2] := by
    rw [hin2]
    apply proj_positive_of_nonneg
    intro i j
    fin_cases i <;> fin_cases j <;> norm_num
  have hin3 : admmSfix.Xbar - admmSfix.W = !![(1:ℝ)/2, 1/2; 1/2, 1/2] := hin2
  have hZ : proj_Snp_imp (admmSfix.Xbar - admmSfix.W)
      (eigOracle2 (admmSfix.Xbar - admmSfix.W)).1
      (eigOracle2 (admmSfix.Xbar - admmSfix.W)).2 = !![(1:ℝ)/2, 1/2; 1/2, 1/2] := by
    rw [hin3]
    have := proj_Snp_imp_oracle_equal_diag (d := 1/2) (o := 1/2) (by norm_num) (by norm_num)
    simpa using this
  simp only [admm_step]
  rw [hX, hY, hZ]
  refine ADMMState.ext ?_ ?_ ?_ ?_ ?_ ?_ ?_ <;>
    · show _ = _
      ext i j
      fin_cases i <;> fin_cases j <;>
        simp [admmSfix, Matrix.vecHead, Matrix.vecTail] <;> norm_num

theorem loop_fix : admm_loop eigOracle2 0 1 1 2 admmSfix 0 0 = ⟨admmSfix, 1, 0, 0⟩ := by
  show admm_loop eigOracle2 0 1 1 (1 + 1) admmSfix 0 0 = _
  simp only [admm_loop]
  rw [step_fix]
  have hrd : (1:ℝ) * frobNorm (admmSfix.Xbar - admmSfix.Xbar) = 0 := by
    rw [sub_self]
    simp [frobNorm, frobSq]
  have hrp : res_primal_of admmSfix = 0 := by
    rw [res_primal_of]
    rw [show admmSfix.X - admmSfix.Xbar = 0 from sub_eq_zero.mpr rfl,
      show admmSfix.Z - admmSfix.Xbar = 0 from sub_eq_zero.mpr rfl,
      show admmSfix.Y - admmSfix.Xbar = 0 from sub_eq_zero.mpr rfl]
    simp [frobSq]
  rw [hrd, hrp]
  have hnc : ¬(is_primal_high 0 admmSfix.X admmSfix.Y admmSfix.Z
      ∨ is_dual_high 0 admmSfix.Y admmSfix.Z) := by
    rw [not_or]
    constructor
    · exact not_lt.mpr (mul_nonneg epsilon_nonneg
        (le_trans (frobNorm_nonneg _) (le_max_left _ _)))
    · exact not_lt.mpr (mul_nonneg epsilon_nonneg
        (add_nonneg (add_nonneg (Real.sqrt_nonneg _) (frobNorm_nonneg _))
          (frobNorm_nonneg _)))
  rw [if_neg hnc]

/-- C9 witness: the stability theorem applied to a run that stops after one
iteration within a budget of `2`: the budget-`3` run is identical. -/
theorem admm_loop_stable_after_stop_witness :
    admm_loop eigOracle2 0 1 1 3 admmSfix 0 0 = admm_loop eigOracle2 0 1 1 2 admmSfix 0 0 := by
  apply admm_loop_stable_after_stop eigOracle2 0 1 1 2 3 admmSfix 0 0 (by norm_num)
  rw [loop_fix]
  norm_num

end BudgetRun

end Pecok
